import Mathlib

/-!
Verification of the SandboxIR overlay-IR header (`llvm/SandboxIR/SandboxIR.h`).

SandboxIR is a transactional overlay IR on top of LLVM IR: a registry (the
`Context`) maps each underlying `llvm::Value` to at most one overlay
`sandboxir::Value`, overlay instructions mutate the underlying IR through
`Use` edges, and a tracker provides `save`/`revert`/`accept` checkpoints.

This file gives a shallow embedding of the parts of that design needed to
settle the claims:
* underlying LLVM values are identified by natural-number ids;
* the registry map `LLVMValueToValueMap` is an association list from
  underlying ids to overlay ids;
* underlying operand lists and block instruction lists are lists of ids;
* the tracker is a stack of checkpoints, each a list of recorded inverse
  actions, exactly as the spec describes the save/revert/accept contract.

Definitions whose C++ bodies appear in the header are translated from them;
definitions whose bodies live outside the provided header (the `Tracker`,
`Use.h`, and the `.cpp` bodies) are modelled from the spec and say so in
their doc comments.
-/

namespace SandboxIR

/-- Identity of an underlying `llvm::Value` (its address in the C++ code). -/
abbrev LLVMValueId := Nat

/-- Identity of an overlay `sandboxir::Value` owned by the registry. -/
abbrev SBValueId := Nat

/-! ## The registry (`sandboxir::Context`)

The `Context` owns every overlay value and maps each underlying LLVM value
to its overlay counterpart through the member
`DenseMap<llvm::Value *, std::unique_ptr<sandboxir::Value>> LLVMValueToValueMap`.
We model the map as an association list (insertion at the front, first match
wins on lookup, mirroring a map with unique keys) together with the counter
that hands out fresh overlay identities. -/

structure Context where
  /-- The `LLVMValueToValueMap` member: underlying id to overlay id. -/
  llvmValueToValueMap : List (LLVMValueId × SBValueId)
  /-- Source of fresh overlay identities (the next `new`-ed object). -/
  nextUID : Nat
deriving DecidableEq, Repr

/-- First-match lookup in the registry map, as `DenseMap::find`. -/
def Context.lookupValue (c : Context) (v : LLVMValueId) : Option SBValueId :=
  (c.llvmValueToValueMap.find? (fun p => p.1 == v)).map (·.2)

/-- Translated from `Context::getOrCreateArgument` in the header: insert a
`\x7bLLVMArg, nullptr\x7d` entry; if the key was newly inserted, construct the
`Argument` overlay and store it; either way return the stored overlay. -/
def Context.getOrCreateArgument (c : Context) (llvmArg : LLVMValueId) :
    SBValueId × Context :=
  match c.lookupValue llvmArg with
  | some sb => (sb, c)
  | none =>
    (c.nextUID,
     ⟨(llvmArg, c.nextUID) :: c.llvmValueToValueMap, c.nextUID + 1⟩)

/-- Modelled from the spec: `Context::getOrCreateValueInternal` (its body is
not in the provided header) returns the canonical overlay Value for an
underlying node, creating and caching it in `LLVMValueToValueMap` on first
request. The subclass dispatched to does not affect the identity discipline,
so the model keeps just the identity. -/
def Context.getOrCreateValueInternal (c : Context) (llvmV : LLVMValueId) :
    SBValueId × Context :=
  match c.lookupValue llvmV with
  | some sb => (sb, c)
  | none =>
    (c.nextUID,
     ⟨(llvmV, c.nextUID) :: c.llvmValueToValueMap, c.nextUID + 1⟩)

/-- Translated from the header: `Context::getOrCreateValue` forwards to
`getOrCreateValueInternal(LLVMV, 0)`. -/
def Context.getOrCreateValue (c : Context) (llvmV : LLVMValueId) :
    SBValueId × Context :=
  c.getOrCreateValueInternal llvmV

/-- Modelled from the spec: `Context::detachLLVMValue` (body not in the
provided header) removes the entry for an underlying value from the maps,
which is how `eraseFromParent` releases an overlay value. -/
def Context.detachLLVMValue (c : Context) (llvmV : LLVMValueId) : Context :=
  ⟨c.llvmValueToValueMap.filter (fun p => p.1 != llvmV), c.nextUID⟩

/-- Modelled from the spec: `Context::getValue` (body not in the provided
header) is a pure lookup returning "not found" with no materialization. The
result is paired with the registry state after the call to make the absence
of side effects a statement rather than a typing accident. -/
def Context.getValue (c : Context) (llvmV : LLVMValueId) :
    Option SBValueId × Context :=
  (c.lookupValue llvmV, c)

/-- Translated from the header: `Context::getNumValues` returns
`LLVMValueToValueMap.size()`. -/
def Context.getNumValues (c : Context) : Nat :=
  c.llvmValueToValueMap.length

/-- A fresh registry with no overlay values. -/
def Context.empty : Context := ⟨[], 0⟩

/-- The registry operations a client can perform that create or destroy
overlay identities. -/
inductive RegOp
  | create (v : LLVMValueId)
  | createArg (v : LLVMValueId)
  | erase (v : LLVMValueId)
deriving DecidableEq

/-- Apply one registry operation. -/
def Context.applyRegOp (c : Context) : RegOp → Context
  | .create v => (c.getOrCreateValue v).2
  | .createArg v => (c.getOrCreateArgument v).2
  | .erase v => c.detachLLVMValue v

/-- Run a sequence of creates and erases from the empty registry. -/
def runRegOps (ops : List RegOp) : Context :=
  ops.foldl Context.applyRegOp Context.empty

/-- The underlying keys currently registered. -/
def Context.keys (c : Context) : List LLVMValueId :=
  c.llvmValueToValueMap.map Prod.fst

/-! ## Association-list helpers for the mutable underlying IR state -/

/-- First-match lookup in an association list. -/
def lookupAssoc {α : Type} (m : List (Nat × α)) (k : Nat) : Option α :=
  (m.find? (fun p => p.1 == k)).map (·.2)

/-- Update the first entry with the given key, leaving the rest untouched. -/
def updAssoc {α : Type} : List (Nat × α) → Nat → (α → α) → List (Nat × α)
  | [], _, _ => []
  | p :: rest, k, f =>
    if p.1 = k then (p.1, f p.2) :: rest else p :: updAssoc rest k f

/-! ## Underlying IR state, mutations and the tracker

The state a `Context` and its tracker watch over: the operand lists of the
underlying users (mutated through `Use` edges), the instruction lists of the
underlying blocks (mutated by insert/remove/erase), and the registry map.
The tracker records, for every mutation performed through the overlay API,
enough information to invert it; `revert` plays the records back. -/

structure IRState where
  /-- Underlying user id to its operand list (underlying value ids). -/
  operands : List (Nat × List Nat)
  /-- Underlying block id to its instruction list (underlying instr ids). -/
  blocks : List (Nat × List Nat)
  /-- The registry map: underlying id to overlay id. -/
  regMap : List (Nat × Nat)
deriving DecidableEq, Repr

/-- One recorded, invertible action, as the spec's design note describes the
transaction log ("an explicit list of inverse-action commands per open
checkpoint"). -/
inductive Change
  /-- Operand `i` of user `u` was overwritten; `old` is the prior value. -/
  | setOp (u i old : Nat)
  /-- An instruction was inserted into block `b` at index `idx`. -/
  | inserted (b idx : Nat)
  /-- Instruction `instr` was removed from block `b` at index `idx`. -/
  | removed (b idx instr : Nat)
  /-- The map entry `(key, ov)` was removed from position `idx` of the
  registry map. -/
  | unregistered (idx key ov : Nat)
deriving DecidableEq, Repr

/-- Modelled from the spec: reverting one recorded action applies its
inverse. -/
def revertChange (s : IRState) : Change → IRState
  | .setOp u i old =>
    { s with operands := updAssoc s.operands u (fun ops => ops.set i old) }
  | .inserted b idx =>
    { s with blocks := updAssoc s.blocks b (fun l => l.eraseIdx idx) }
  | .removed b idx x =>
    { s with blocks := updAssoc s.blocks b (fun l => l.insertIdx idx x) }
  | .unregistered j k ov =>
    { s with regMap := s.regMap.insertIdx j (k, ov) }

/-- Modelled from the spec: revert a log of recorded actions, newest first. -/
def revertLog (log : List Change) (s : IRState) : IRState :=
  log.foldl revertChange s

/-- The structural and operand mutations the overlay API offers while a
checkpoint may be open (spec sections 4.3 and 4.4). -/
inductive Mutation
  | setOperand (u i v : Nat)
  | swapOperands (u i j : Nat)
  | insertInto (b idx instr : Nat)
  | removeFromParent (b idx : Nat)
  | eraseFromParent (b idx : Nat)
deriving DecidableEq, Repr

/-- Modelled from the spec: `User::setOperand(i, v)` writes through the Use
edge at index `i` into the underlying operand list (body in the `.cpp`, not
the header), and the tracker records the overwritten operand. A missing user
or an out-of-range index is a precondition violation (fatal assertion),
returned here as `none`. -/
def apiSetOperand (u i v : Nat) (s : IRState) : Option (IRState × Change) :=
  match lookupAssoc s.operands u with
  | none => none
  | some ops =>
    match ops.get? i with
    | none => none
    | some old =>
      some ({ s with operands := updAssoc s.operands u (fun o => o.set i v) },
            .setOp u i old)

/-- Translated from the header: `User::swapOperandsInternal(OpIdxA, OpIdxB)`
asserts both indices are in bounds, takes the two operand `Use`s and swaps
them; `Use::swap` (outside the header) exchanges the two underlying operand
values, each write being recorded with the tracker. -/
def apiSwapOperands (u i j : Nat) (s : IRState) :
    Option (IRState × List Change) :=
  match lookupAssoc s.operands u with
  | none => none
  | some ops =>
    match ops.get? i, ops.get? j with
    | some a, some b =>
      match apiSetOperand u i b s with
      | none => none
      | some (s1, c1) =>
        match apiSetOperand u j a s1 with
        | none => none
        | some (s2, c2) => some (s2, [c2, c1])
    | _, _ => none

/-- Modelled from the spec: `Instruction::insertInto(BB, WhereIt)` splices a
detached instruction into the underlying block at the mirrored position; the
tracker records the insertion position. -/
def apiInsertInto (b idx x : Nat) (s : IRState) :
    Option (IRState × Change) :=
  match lookupAssoc s.blocks b with
  | none => none
  | some l =>
    if idx ≤ l.length then
      some ({ s with blocks := updAssoc s.blocks b (fun bl => bl.insertIdx idx x) },
            .inserted b idx)
    else none

/-- Modelled from the spec: `Instruction::removeFromParent` unlinks the
underlying instruction from its block without destroying it; the overlay
node and its registry entry survive. The tracker records the removed
instruction and its position. -/
def apiRemoveFromParent (b idx : Nat) (s : IRState) :
    Option (IRState × Change) :=
  match lookupAssoc s.blocks b with
  | none => none
  | some l =>
    match l.get? idx with
    | none => none
    | some x =>
      some ({ s with blocks := updAssoc s.blocks b (fun bl => bl.eraseIdx idx) },
            .removed b idx x)

/-- Modelled from the spec: `Instruction::eraseFromParent` detaches the
underlying instruction and asks the registry to release ownership, removing
its entry from the identity map; the tracker records both effects so a
rollback can recreate the overlay node and re-register it under its original
identity. -/
def apiEraseFromParent (b idx : Nat) (s : IRState) :
    Option (IRState × List Change) :=
  match lookupAssoc s.blocks b with
  | none => none
  | some l =>
    match l.get? idx with
    | none => none
    | some x =>
      match s.regMap.get? (s.regMap.findIdx (fun p => p.1 == x)) with
      | none => none
      | some entry =>
        some ({ s with
                  blocks := updAssoc s.blocks b (fun bl => bl.eraseIdx idx),
                  regMap :=
                    s.regMap.eraseIdx (s.regMap.findIdx (fun p => p.1 == x)) },
              [.unregistered (s.regMap.findIdx (fun p => p.1 == x))
                entry.1 entry.2,
               .removed b idx x])

/-- One sanctioned API mutation: the new state and the recorded actions,
newest first. -/
def apiStep (s : IRState) : Mutation → Option (IRState × List Change)
  | .setOperand u i v => (apiSetOperand u i v s).map (fun p => (p.1, [p.2]))
  | .swapOperands u i j => apiSwapOperands u i j s
  | .insertInto b idx x => (apiInsertInto b idx x s).map (fun p => (p.1, [p.2]))
  | .removeFromParent b idx =>
    (apiRemoveFromParent b idx s).map (fun p => (p.1, [p.2]))
  | .eraseFromParent b idx => apiEraseFromParent b idx s

/-- The tracker: a stack of open checkpoints, each holding the actions
recorded since its `save()`, newest first. -/
structure Tracker where
  checkpoints : List (List Change)
deriving DecidableEq, Repr

/-- A Context's mutable world: the underlying IR state plus the tracker. -/
structure TxState where
  ir : IRState
  tracker : Tracker
deriving DecidableEq, Repr

/-- Modelled from the spec: `Context::save` (forwarding to `Tracker::save`)
opens a checkpoint; checkpoints stack. -/
def TxState.save (ts : TxState) : TxState :=
  ⟨ts.ir, ⟨[] :: ts.tracker.checkpoints⟩⟩

/-- Record the actions of one mutation with the innermost open checkpoint
(no-op when no checkpoint is open). -/
def trackChanges (cs : List Change) (t : Tracker) : Tracker :=
  match t.checkpoints with
  | [] => t
  | log :: rest => ⟨(cs ++ log) :: rest⟩

/-- Modelled from the spec: `Context::revert` undoes every recorded mutation
back to the last `save()`, closing the innermost checkpoint. -/
def TxState.revert (ts : TxState) : TxState :=
  match ts.tracker.checkpoints with
  | [] => ts
  | log :: rest => ⟨revertLog log ts.ir, ⟨rest⟩⟩

/-- Modelled from the spec: `Context::accept` discards the recorded log
without undoing anything, committing the innermost checkpoint. -/
def TxState.accept (ts : TxState) : TxState :=
  match ts.tracker.checkpoints with
  | [] => ts
  | _ :: rest => ⟨ts.ir, ⟨rest⟩⟩

/-- Apply one mutation through the overlay API, recording it. -/
def txStep (ts : TxState) (m : Mutation) : Option TxState :=
  match apiStep ts.ir m with
  | none => none
  | some (s', cs) => some ⟨s', trackChanges cs ts.tracker⟩

/-- Apply a whole sequence of mutations through the overlay API. -/
def txRun : List Mutation → TxState → Option TxState
  | [], ts => some ts
  | m :: ms, ts =>
    match txStep ts m with
    | none => none
    | some ts' => txRun ms ts'

/-! ## Operand access (`sandboxir::User`)

`User::getOperand(OpIdx)` is `getOperandUse(OpIdx).get()` in the header;
`getOperandUse` goes through the virtual `getOperandUseInternal`, whose
default implementation wraps the underlying operand at the same index, and
`Use::get()` (in `Use.h`, outside the header) resolves the referenced
underlying value through the registry. -/

/-- Translated from the header (`User::getOperand`), with the default use
edge and `Use::get` resolution modelled from the spec: read underlying
operand `i` of user `u` and resolve it to its overlay value through the
registry map. -/
def getOperand (s : IRState) (u i : Nat) : Option Nat :=
  match lookupAssoc s.operands u with
  | none => none
  | some ops =>
    match ops.get? i with
    | none => none
    | some uval => lookupAssoc s.regMap uval

/-! ## Use edges and the per-subclass operand-index mappings -/

/-- A `sandboxir::Use` as a view over an underlying operand edge: the owning
overlay user and the position of the underlying `llvm::Use` in its user's
operand list (the edge handle). -/
structure UseEdge where
  owner : Nat
  operandNo : Nat
deriving DecidableEq, Repr

/-- Modelled from the spec: `User::getOperandUseDefault` wraps the
underlying operand edge at the same index (the default implementation works
only when the overlay operand order equals the underlying order, which every
class in this header satisfies). -/
def getOperandUseDefault (owner opIdx : Nat) : UseEdge :=
  ⟨owner, opIdx⟩

/-- Translated from the header: `User::getUseOperandNoDefault` returns
`Use.LLVMUse->getOperandNo()`, the position of the raw underlying edge. -/
def getUseOperandNoDefault (u : UseEdge) : Nat :=
  u.operandNo

/-- The concrete instruction subclasses defined in the header. -/
inductive InstrClassID
  | Select | Br | Load | Store | Ret | Call | Invoke | CallBr
  | GetElementPtr | Cast | PHI | Opaque
deriving DecidableEq, Repr

/-- The concrete `User` subclasses of the header: `Constant` (and its
subclass `Function`, which inherits its mappings) and the instruction
classes. -/
inductive UserClassID
  | constant
  | function
  | instr (c : InstrClassID)
deriving DecidableEq, Repr

/-- Translated from the header: every concrete subclass implements
`getOperandUseInternal` by delegating to `getOperandUseDefault`. -/
def getOperandUseInternal (c : UserClassID) (owner opIdx : Nat) : UseEdge :=
  match c with
  | .constant => getOperandUseDefault owner opIdx
  | .function => getOperandUseDefault owner opIdx
  | .instr .Select => getOperandUseDefault owner opIdx
  | .instr .Br => getOperandUseDefault owner opIdx
  | .instr .Load => getOperandUseDefault owner opIdx
  | .instr .Store => getOperandUseDefault owner opIdx
  | .instr .Ret => getOperandUseDefault owner opIdx
  | .instr .Call => getOperandUseDefault owner opIdx
  | .instr .Invoke => getOperandUseDefault owner opIdx
  | .instr .CallBr => getOperandUseDefault owner opIdx
  | .instr .GetElementPtr => getOperandUseDefault owner opIdx
  | .instr .Cast => getOperandUseDefault owner opIdx
  | .instr .PHI => getOperandUseDefault owner opIdx
  | .instr .Opaque => getOperandUseDefault owner opIdx

/-- Translated from the header: `User::getOperandUse(OpIdx)` calls
`getOperandUseInternal(OpIdx, Verify = true)`. -/
def getOperandUse (c : UserClassID) (owner opIdx : Nat) : UseEdge :=
  getOperandUseInternal c owner opIdx

/-- Translated from the header: every concrete subclass implements
`getUseOperandNo` by delegating to `getUseOperandNoDefault`. -/
def getUseOperandNo (c : UserClassID) (u : UseEdge) : Nat :=
  match c with
  | .constant => getUseOperandNoDefault u
  | .function => getUseOperandNoDefault u
  | .instr .Select => getUseOperandNoDefault u
  | .instr .Br => getUseOperandNoDefault u
  | .instr .Load => getUseOperandNoDefault u
  | .instr .Store => getUseOperandNoDefault u
  | .instr .Ret => getUseOperandNoDefault u
  | .instr .Call => getUseOperandNoDefault u
  | .instr .Invoke => getUseOperandNoDefault u
  | .instr .CallBr => getUseOperandNoDefault u
  | .instr .GetElementPtr => getUseOperandNoDefault u
  | .instr .Cast => getUseOperandNoDefault u
  | .instr .PHI => getUseOperandNoDefault u
  | .instr .Opaque => getUseOperandNoDefault u

/-! ## Instruction spans (`getLLVMInstrs` / `getNumOfIRInstrs`) -/

/-- Translated from the header: every concrete instruction subclass returns
the singleton list of its anchor value from `getLLVMInstrs`. -/
def getLLVMInstrs (c : InstrClassID) (val : LLVMValueId) : List LLVMValueId :=
  match c with
  | .Select => [val]
  | .Br => [val]
  | .Load => [val]
  | .Store => [val]
  | .Ret => [val]
  | .Call => [val]
  | .Invoke => [val]
  | .CallBr => [val]
  | .GetElementPtr => [val]
  | .Cast => [val]
  | .PHI => [val]
  | .Opaque => [val]

/-- Translated from the header: every concrete instruction subclass returns
`1u` from `getNumOfIRInstrs`. -/
def getNumOfIRInstrs (c : InstrClassID) : Nat :=
  match c with
  | .Select => 1
  | .Br => 1
  | .Load => 1
  | .Store => 1
  | .Ret => 1
  | .Call => 1
  | .Invoke => 1
  | .CallBr => 1
  | .GetElementPtr => 1
  | .Cast => 1
  | .PHI => 1
  | .Opaque => 1

/-! ## Conditional branches (`sandboxir::BranchInst`) -/

/-- Modelled from the underlying LLVM interface the spec treats as a
collaborator: `llvm::BranchInst` stores a conditional branch's operands as
`[condition, false-dest, true-dest]` and `getSuccessor(i)` reads the operand
`numOperands - 1 - i`, so successor 0 is the last operand. -/
def llvmBranchSuccessor (ops : List Nat) (succIdx : Nat) : Option Nat :=
  ops.get? (ops.length - 1 - succIdx)

/-- Modelled from the spec: `BranchInst::getSuccessor(i)` (body in the
`.cpp`) returns the overlay block registered for
`llvm::BranchInst::getSuccessor(i)`. -/
def branchGetSuccessor (s : IRState) (br succIdx : Nat) : Option Nat :=
  match lookupAssoc s.operands br with
  | none => none
  | some ops =>
    match llvmBranchSuccessor ops succIdx with
    | none => none
    | some uBB => lookupAssoc s.regMap uBB

/-- The underlying branch's successor list, in successor order. -/
def llvmBranchSuccessors (ops : List Nat) : List Nat :=
  (List.range (ops.length - 1)).filterMap (llvmBranchSuccessor ops)

/-- Translated from the header: `BranchInst::swapSuccessors` calls
`swapOperandsInternal(1, 2)` through the tracked API. -/
def swapSuccessors (br : Nat) (ts : TxState) : Option TxState :=
  txStep ts (.swapOperands br 1 2)

/-! ## Block materialization and iteration (`sandboxir::BasicBlock`)

A `BasicBlock` stores no instruction list of its own: `begin()`/`end()`
wrap the underlying `llvm::BasicBlock` iterators and `BBIterator::getInstr`
resolves each underlying instruction through the registry. The block's
contents are materialized once by `buildBasicBlockFromLLVMIR`. -/

structure BBState where
  /-- The registry owning the overlay values. -/
  ctx : Context
  /-- The underlying block's instruction list. -/
  instrs : List LLVMValueId
deriving DecidableEq, Repr

/-- Modelled from the spec: `BasicBlock::buildBasicBlockFromLLVMIR` (body in
the `.cpp`) walks the underlying block once, creating one overlay
instruction per underlying instruction via the registry. -/
def buildBasicBlockFromLLVMIR (c : Context) (instrs : List LLVMValueId) :
    Context :=
  instrs.foldl (fun c u => (c.getOrCreateValue u).2) c

/-- Modelled from the spec: the instruction sequence observed by iterating
the block with `BBIterator` from `begin()` to `end()`; each underlying
instruction is dereferenced to the overlay instruction the registry holds
for it (`BBIterator::getInstr` returns null on a missing entry, so missing
entries yield nothing). -/
def bbOverlaySeq (c : Context) (instrs : List LLVMValueId) : List SBValueId :=
  instrs.filterMap (fun u => (c.getValue u).1)

/-- The structural block mutations of the instruction protocol. -/
inductive BlockOp
  /-- Create a new instruction `u` (registering its overlay) and insert it
  at position `idx`, as the create-then-insert API does. -/
  | insertAt (idx : Nat) (u : LLVMValueId)
  /-- Move the instruction at position `i` to position `j`
  (`moveBefore`). -/
  | moveIdx (i j : Nat)
  /-- `removeFromParent`: unlink the instruction at `idx`; the overlay node
  and its registry entry survive. -/
  | removeAt (idx : Nat)
  /-- `eraseFromParent`: unlink the instruction at `idx` and release its
  registry entry. -/
  | eraseAt (idx : Nat)
deriving DecidableEq, Repr

/-- Modelled from the spec: apply one structural mutation, keeping the
underlying block and the registry in sync before returning. -/
def applyBlockOp (s : BBState) : BlockOp → BBState
  | .insertAt idx u =>
    if u ∈ s.instrs then s
    else ⟨(s.ctx.getOrCreateValue u).2, s.instrs.insertIdx idx u⟩
  | .moveIdx i j =>
    match s.instrs.get? i with
    | none => s
    | some x => ⟨s.ctx, (s.instrs.eraseIdx i).insertIdx j x⟩
  | .removeAt idx => ⟨s.ctx, s.instrs.eraseIdx idx⟩
  | .eraseAt idx =>
    match s.instrs.get? idx with
    | none => s
    | some x => ⟨s.ctx.detachLLVMValue x, s.instrs.eraseIdx idx⟩

/-- Run a sequence of structural block mutations. -/
def runBlockOps (ops : List BlockOp) (s : BBState) : BBState :=
  ops.foldl applyBlockOp s

/-- The invariant the block-mutation protocol maintains: every underlying
instruction of the block has a registered overlay, and the underlying block
lists each instruction once. -/
def BBInv (s : BBState) : Prop :=
  (∀ u ∈ s.instrs, ∃ sb, s.ctx.lookupValue u = some sb) ∧ s.instrs.Nodup

/-! ## Detach and reattach versus `moveBefore`

`removeFromParent`, `insertBefore` and `moveBefore` have their bodies in the
`.cpp`; the spec fixes their meaning. The world here is the block map of a
function: block id to underlying instruction list. -/

/-- Modelled from the spec: `Instruction::removeFromParent` unlinks the
instruction from whichever block contains it, without destroying it. -/
def removeInstrFromParent (bs : List (Nat × List Nat)) (x : Nat) :
    List (Nat × List Nat) :=
  bs.map (fun p => (p.1, p.2.erase x))

/-- Modelled from the spec: `Instruction::insertBefore(W)` splices the
detached instruction into W's block immediately before W. -/
def insertInstrBefore (bs : List (Nat × List Nat)) (w x : Nat) :
    List (Nat × List Nat) :=
  bs.map (fun p =>
    (p.1, if w ∈ p.2 then p.2.insertIdx (p.2.indexOf w) x else p.2))

/-- Modelled from the spec: `Instruction::moveBefore(W)` moves the
instruction before W as one observably atomic operation: within each block,
drop the moved instruction and splice it back directly before W. -/
def moveInstrBefore (bs : List (Nat × List Nat)) (w x : Nat) :
    List (Nat × List Nat) :=
  bs.map (fun p =>
    (p.1,
     if w ∈ p.2.erase x then
       (p.2.erase x).insertIdx ((p.2.erase x).indexOf w) x
     else p.2.erase x))

/-! ## Use counting (`sandboxir::Value`) -/

/-- Translated from the header: `Value::getNumUses` counts the user edges by
walking the use list (`range_size` over `uses()`). The use list is the list
of (user, operand-slot) edges referencing the value. -/
def getNumUses (uses : List (Nat × Nat)) : Nat :=
  uses.length

/-- Translated from the header, loop for loop: `Value::hasNUsesOrMore(Num)`
walks the use list with a counter starting at zero and returns true as soon
as the incremented counter reaches `Num`; if the list ends first it returns
false. -/
def hasNUsesOrMore (uses : List (Nat × Nat)) (num : Nat) : Bool :=
  go uses 0
where
  go : List (Nat × Nat) → Nat → Bool
    | [], _ => false
    | _ :: rest, cnt =>
      if cnt + 1 ≥ num then true else go rest (cnt + 1)

/-- Translated from the header, loop for loop: `Value::hasNUses(Num)` walks
the use list with a counter starting at zero, returns false as soon as the
incremented counter exceeds `Num`, and otherwise compares the final count
with `Num`. -/
def hasNUses (uses : List (Nat × Nat)) (num : Nat) : Bool :=
  go uses 0
where
  go : List (Nat × Nat) → Nat → Bool
    | [], cnt => cnt == num
    | _ :: rest, cnt =>
      if cnt + 1 > num then false else go rest (cnt + 1)

/-! ## List lemmas -/

/-- Setting an index to the element it already holds is the identity. -/
theorem list_set_get_self {α : Type} : ∀ (l : List α) (n : Nat) (a : α),
    l.get? n = some a → l.set n a = l
  | [], _, _, h => by simp at h
  | x :: xs, 0, a, h => by
    simp only [List.get?] at h
    simp [Option.some.injEq] at h
    simp [List.set, h]
  | x :: xs, n + 1, a, h => by
    simp only [List.get?] at h
    simp [List.set, list_set_get_self xs n a h]

/-- Reinserting an erased element at its original index restores the list. -/
theorem list_insertIdx_eraseIdx {α : Type} : ∀ (l : List α) (n : Nat) (a : α),
    l.get? n = some a → (l.eraseIdx n).insertIdx n a = l
  | [], _, _, h => by simp at h
  | x :: xs, 0, a, h => by
    simp only [List.get?, Option.some.injEq] at h
    simp [List.eraseIdx, List.insertIdx_zero, h]
  | x :: xs, n + 1, a, h => by
    simp only [List.get?] at h
    show ((x :: xs).eraseIdx (n + 1)).insertIdx (n + 1) a = x :: xs
    rw [List.eraseIdx_cons_succ, List.insertIdx_succ_cons,
      list_insertIdx_eraseIdx xs n a h]

/-! ## Association-list lemmas -/

theorem updAssoc_updAssoc {α : Type} :
    ∀ (m : List (Nat × α)) (k : Nat) (f g : α → α),
      updAssoc (updAssoc m k f) k g = updAssoc m k (fun a => g (f a))
  | [], _, _, _ => rfl
  | p :: rest, k, f, g => by
    by_cases h : p.1 = k
    · simp [updAssoc, h]
    · simp [updAssoc, h, updAssoc_updAssoc rest k f g]

theorem updAssoc_eq_self {α : Type} :
    ∀ (m : List (Nat × α)) (k : Nat) (f : α → α) (a : α),
      lookupAssoc m k = some a → f a = a → updAssoc m k f = m
  | [], _, _, _, h, _ => by simp [lookupAssoc] at h
  | p :: rest, k, f, a, h, hf => by
    by_cases hk : p.1 = k
    · have ha : a = p.2 := by
        simp [lookupAssoc, List.find?, hk] at h
        exact h.symm
      subst ha
      show (if p.1 = k then (p.1, f p.2) :: rest else p :: updAssoc rest k f) =
        p :: rest
      rw [if_pos hk, hf]
    · have hne : (p.1 == k) = false := by simp [hk]
      have h' : lookupAssoc rest k = some a := by
        simpa [lookupAssoc, List.find?, hne] using h
      simp [updAssoc, hk, updAssoc_eq_self rest k f a h' hf]

theorem updAssoc_id {α : Type} :
    ∀ (m : List (Nat × α)) (k : Nat) (f : α → α),
      (∀ a, f a = a) → updAssoc m k f = m
  | [], _, _, _ => rfl
  | p :: rest, k, f, hf => by
    by_cases hk : p.1 = k
    · show (if p.1 = k then (p.1, f p.2) :: rest else p :: updAssoc rest k f) =
        p :: rest
      rw [if_pos hk, hf]
    · simp [updAssoc, hk, updAssoc_id rest k f hf]

theorem lookupAssoc_updAssoc {α : Type} :
    ∀ (m : List (Nat × α)) (k : Nat) (f : α → α) (a : α),
      lookupAssoc m k = some a →
      lookupAssoc (updAssoc m k f) k = some (f a)
  | [], _, _, _, h => by simp [lookupAssoc] at h
  | p :: rest, k, f, a, h => by
    by_cases hk : p.1 = k
    · have : a = p.2 := by
        simp [lookupAssoc, List.find?, hk] at h
        exact h.symm
      subst this
      simp [lookupAssoc, updAssoc, List.find?, hk]
    · have hne : (p.1 == k) = false := by simp [hk]
      have h' : lookupAssoc rest k = some a := by
        simpa [lookupAssoc, List.find?, hne] using h
      simpa [lookupAssoc, updAssoc, List.find?, hk, hne]
        using lookupAssoc_updAssoc rest k f a h'

/-! ## Canonicalization of the registry map (claim C1) -/

theorem lookupValue_eq_none_iff (c : Context) (v : LLVMValueId) :
    c.lookupValue v = none ↔ v ∉ c.keys := by
  unfold Context.lookupValue Context.keys
  rw [Option.map_eq_none', List.find?_eq_none]
  constructor
  · intro h hv
    rcases List.mem_map.mp hv with ⟨p, hp, hfst⟩
    have := h p hp
    rw [hfst] at this
    simp at this
  · intro h p hp
    simp only [beq_iff_eq]
    intro hfst
    exact h (List.mem_map.mpr ⟨p, hp, hfst⟩)

/-- Creating preserves distinctness of the registered underlying keys. -/
theorem keys_nodup_applyRegOp (c : Context) (op : RegOp)
    (h : c.keys.Nodup) : (c.applyRegOp op).keys.Nodup := by
  cases op with
  | create v =>
    cases hl : c.lookupValue v with
    | some sb =>
      simpa [Context.applyRegOp, Context.getOrCreateValue,
        Context.getOrCreateValueInternal, hl] using h
    | none =>
      simp only [Context.applyRegOp, Context.getOrCreateValue,
        Context.getOrCreateValueInternal, hl, Context.keys, List.map_cons]
      exact List.nodup_cons.mpr ⟨(lookupValue_eq_none_iff c v).mp hl, h⟩
  | createArg v =>
    cases hl : c.lookupValue v with
    | some sb =>
      simpa [Context.applyRegOp, Context.getOrCreateArgument, hl] using h
    | none =>
      simp only [Context.applyRegOp, Context.getOrCreateArgument, hl,
        Context.keys, List.map_cons]
      exact List.nodup_cons.mpr ⟨(lookupValue_eq_none_iff c v).mp hl, h⟩
  | erase v =>
    simp only [Context.applyRegOp, Context.detachLLVMValue, Context.keys]
    exact h.sublist ((List.filter_sublist _).map Prod.fst)

theorem keys_nodup_runRegOps (ops : List RegOp) :
    (runRegOps ops).keys.Nodup := by
  have general : ∀ (l : List RegOp) (c : Context), c.keys.Nodup →
      (l.foldl Context.applyRegOp c).keys.Nodup := by
    intro l
    induction l with
    | nil => intro c h; simpa using h
    | cons op rest ih =>
      intro c h
      exact ih _ (keys_nodup_applyRegOp c op h)
  exact general ops Context.empty (by simp [Context.empty, Context.keys])

/-- A second `getOrCreateValue` on the same underlying node returns the
identity handed out by the first call and leaves the registry untouched. -/
theorem getOrCreateValue_idem (c : Context) (v : LLVMValueId) :
    ((c.getOrCreateValue v).2.getOrCreateValue v).1 = (c.getOrCreateValue v).1 ∧
    ((c.getOrCreateValue v).2.getOrCreateValue v).2 = (c.getOrCreateValue v).2 := by
  unfold Context.getOrCreateValue Context.getOrCreateValueInternal
  cases hl : c.lookupValue v with
  | some sb => simp [hl]
  | none => simp [Context.lookupValue, List.find?]

/-- A second `getOrCreateArgument` on the same underlying argument returns
the identity handed out by the first call and leaves the registry untouched. -/
theorem getOrCreateArgument_idem (c : Context) (v : LLVMValueId) :
    ((c.getOrCreateArgument v).2.getOrCreateArgument v).1 =
      (c.getOrCreateArgument v).1 ∧
    ((c.getOrCreateArgument v).2.getOrCreateArgument v).2 =
      (c.getOrCreateArgument v).2 := by
  unfold Context.getOrCreateArgument
  cases hl : c.lookupValue v with
  | some sb => simp [hl]
  | none => simp [Context.lookupValue, List.find?]

/-- C1: for every underlying LLVM value, repeated `getOrCreateValue` (and
`getOrCreateArgument` for arguments) return the identical overlay value
every time, and after any sequence of creates and erases the registry map
holds at most one overlay entry per underlying node (its keys are
pairwise distinct). -/
theorem claim_C1_canonicalization :
    (∀ ops : List RegOp, (runRegOps ops).keys.Nodup) ∧
    (∀ (c : Context) (v : LLVMValueId),
      ((c.getOrCreateValue v).2.getOrCreateValue v).1 =
        (c.getOrCreateValue v).1 ∧
      ((c.getOrCreateValue v).2.getOrCreateValue v).2 =
        (c.getOrCreateValue v).2) ∧
    (∀ (c : Context) (v : LLVMValueId),
      ((c.getOrCreateArgument v).2.getOrCreateArgument v).1 =
        (c.getOrCreateArgument v).1 ∧
      ((c.getOrCreateArgument v).2.getOrCreateArgument v).2 =
        (c.getOrCreateArgument v).2) :=
  ⟨keys_nodup_runRegOps, getOrCreateValue_idem, getOrCreateArgument_idem⟩

/-! ## Revert exactness of the tracked mutations (claim C2) -/

theorem apiSetOperand_revert (u i v : Nat) (s s' : IRState) (c : Change)
    (h : apiSetOperand u i v s = some (s', c)) :
    revertChange s' c = s := by
  unfold apiSetOperand at h
  split at h
  · simp at h
  · rename_i ops hops
    split at h
    · simp at h
    · rename_i old hold
      simp only [Option.some.injEq, Prod.mk.injEq] at h
      obtain ⟨hs', hc⟩ := h
      subst hs'
      subst hc
      show IRState.mk
        (updAssoc (updAssoc s.operands u (fun o => o.set i v)) u
          (fun o => o.set i old)) s.blocks s.regMap = s
      rw [updAssoc_updAssoc]
      simp only [List.set_set]
      rw [updAssoc_eq_self s.operands u _ ops hops
        (list_set_get_self ops i old hold)]

theorem apiInsertInto_revert (b idx x : Nat) (s s' : IRState) (c : Change)
    (h : apiInsertInto b idx x s = some (s', c)) :
    revertChange s' c = s := by
  unfold apiInsertInto at h
  split at h
  · simp at h
  · rename_i l hbl
    split at h
    · simp only [Option.some.injEq, Prod.mk.injEq] at h
      obtain ⟨hs', hc⟩ := h
      subst hs'
      subst hc
      show IRState.mk s.operands
        (updAssoc (updAssoc s.blocks b (fun bl => bl.insertIdx idx x)) b
          (fun bl => bl.eraseIdx idx)) s.regMap = s
      rw [updAssoc_updAssoc]
      rw [updAssoc_id s.blocks b _ (fun a => List.eraseIdx_insertIdx idx a)]
    · simp at h

theorem apiRemoveFromParent_revert (b idx : Nat) (s s' : IRState) (c : Change)
    (h : apiRemoveFromParent b idx s = some (s', c)) :
    revertChange s' c = s := by
  unfold apiRemoveFromParent at h
  split at h
  · simp at h
  · rename_i l hbl
    split at h
    · simp at h
    · rename_i x hx
      simp only [Option.some.injEq, Prod.mk.injEq] at h
      obtain ⟨hs', hc⟩ := h
      subst hs'
      subst hc
      show IRState.mk s.operands
        (updAssoc (updAssoc s.blocks b (fun bl => bl.eraseIdx idx)) b
          (fun bl => bl.insertIdx idx x)) s.regMap = s
      rw [updAssoc_updAssoc]
      rw [updAssoc_eq_self s.blocks b _ l hbl
        (list_insertIdx_eraseIdx l idx x hx)]

theorem apiEraseFromParent_revert (b idx : Nat) (s s' : IRState)
    (cs : List Change) (h : apiEraseFromParent b idx s = some (s', cs)) :
    revertLog cs s' = s := by
  unfold apiEraseFromParent at h
  split at h
  · simp at h
  · rename_i l hbl
    split at h
    · simp at h
    · rename_i x hx
      split at h
      · simp at h
      · rename_i entry hj
        simp only [Option.some.injEq, Prod.mk.injEq] at h
        obtain ⟨hs', hc⟩ := h
        subst hs'
        subst hc
        show revertChange (revertChange _ (.unregistered _ entry.1 entry.2))
          (.removed b idx x) = s
        simp only [revertChange]
        rw [show ((entry.1, entry.2) : Nat × Nat) = entry from rfl]
        rw [list_insertIdx_eraseIdx s.regMap _ entry hj]
        show IRState.mk s.operands
          (updAssoc (updAssoc s.blocks b (fun bl => bl.eraseIdx idx)) b
            (fun bl => bl.insertIdx idx x)) s.regMap = s
        rw [updAssoc_updAssoc]
        rw [updAssoc_eq_self s.blocks b _ l hbl
          (list_insertIdx_eraseIdx l idx x hx)]

theorem apiSwapOperands_revert (u i j : Nat) (s s' : IRState)
    (cs : List Change) (h : apiSwapOperands u i j s = some (s', cs)) :
    revertLog cs s' = s := by
  unfold apiSwapOperands at h
  split at h
  · simp at h
  · rename_i ops hops
    split at h
    · rename_i a b ha hb
      split at h
      · simp at h
      · rename_i s1 c1 h1
        split at h
        · simp at h
        · rename_i s2 c2 h2
          simp only [Option.some.injEq, Prod.mk.injEq] at h
          obtain ⟨hs', hc⟩ := h
          subst hs'
          subst hc
          show revertChange (revertChange s2 c2) c1 = s
          rw [apiSetOperand_revert u j a s1 s2 c2 h2]
          exact apiSetOperand_revert u i b s s1 c1 h1
    · simp at h

/-- Every sanctioned API mutation is exactly inverted by replaying its
recorded actions. -/
theorem apiStep_revert (s : IRState) (m : Mutation) (s' : IRState)
    (cs : List Change) (h : apiStep s m = some (s', cs)) :
    revertLog cs s' = s := by
  cases m with
  | setOperand u i v =>
    simp only [apiStep] at h
    cases h1 : apiSetOperand u i v s with
    | none => rw [h1] at h; simp at h
    | some p =>
      rw [h1] at h
      simp only [Option.map_some', Option.some.injEq, Prod.mk.injEq] at h
      obtain ⟨hs', hc⟩ := h
      subst hs'
      subst hc
      show revertChange p.1 p.2 = s
      exact apiSetOperand_revert u i v s p.1 p.2 (by rw [h1])
  | swapOperands u i j => exact apiSwapOperands_revert u i j s s' cs h
  | insertInto b idx x =>
    simp only [apiStep] at h
    cases h1 : apiInsertInto b idx x s with
    | none => rw [h1] at h; simp at h
    | some p =>
      rw [h1] at h
      simp only [Option.map_some', Option.some.injEq, Prod.mk.injEq] at h
      obtain ⟨hs', hc⟩ := h
      subst hs'
      subst hc
      show revertChange p.1 p.2 = s
      exact apiInsertInto_revert b idx x s p.1 p.2 (by rw [h1])
  | removeFromParent b idx =>
    simp only [apiStep] at h
    cases h1 : apiRemoveFromParent b idx s with
    | none => rw [h1] at h; simp at h
    | some p =>
      rw [h1] at h
      simp only [Option.map_some', Option.some.injEq, Prod.mk.injEq] at h
      obtain ⟨hs', hc⟩ := h
      subst hs'
      subst hc
      show revertChange p.1 p.2 = s
      exact apiRemoveFromParent_revert b idx s p.1 p.2 (by rw [h1])
  | eraseFromParent b idx => exact apiEraseFromParent_revert b idx s s' cs h

theorem revertLog_append (cs ds : List Change) (s : IRState) :
    revertLog (cs ++ ds) s = revertLog ds (revertLog cs s) :=
  List.foldl_append _ _ _ _

/-- Running tracked mutations from a state with an open checkpoint extends
the innermost log with actions whose replay restores the starting state. -/
theorem txRun_log : ∀ (ms : List Mutation) (ts ts' : TxState)
    (l : List Change) (rest : List (List Change)),
    ts.tracker.checkpoints = l :: rest →
    txRun ms ts = some ts' →
    ∃ cs, ts'.tracker.checkpoints = (cs ++ l) :: rest ∧
      revertLog cs ts'.ir = ts.ir
  | [], ts, ts', l, rest, hcp, hrun => by
    simp only [txRun, Option.some.injEq] at hrun
    subst hrun
    exact ⟨[], by simpa using hcp, rfl⟩
  | m :: ms, ts, ts', l, rest, hcp, hrun => by
    simp only [txRun] at hrun
    cases hstep : txStep ts m with
    | none => rw [hstep] at hrun; simp at hrun
    | some ts1 =>
      rw [hstep] at hrun
      unfold txStep at hstep
      cases happ : apiStep ts.ir m with
      | none => rw [happ] at hstep; simp at hstep
      | some p =>
        rw [happ] at hstep
        simp only [Option.some.injEq] at hstep
        subst hstep
        have hcp1 : (trackChanges p.2 ts.tracker).checkpoints =
            (p.2 ++ l) :: rest := by
          simp [trackChanges, hcp]
        obtain ⟨cs2, hcp2, hrev2⟩ :=
          txRun_log ms ⟨p.1, trackChanges p.2 ts.tracker⟩ ts' (p.2 ++ l) rest
            hcp1 hrun
        refine ⟨cs2 ++ p.2, ?_, ?_⟩
        · rw [hcp2, List.append_assoc]
        · rw [revertLog_append, hrev2]
          exact apiStep_revert ts.ir m p.1 p.2 (by rw [happ])

/-- C2: for every sequence of mutations applied through the overlay API
after `save()`, `revert()` restores the whole tracked world (operand lists,
block order, and the registry entries of erased overlay values) to the
pre-save state and closes the checkpoint, while `accept()` keeps exactly the
state the mutations produced and merely discards the log. -/
theorem claim_C2_transaction_law (ms : List Mutation) (s₀ : IRState)
    (ts' : TxState)
    (h : txRun ms (TxState.save ⟨s₀, ⟨[]⟩⟩) = some ts') :
    ts'.revert = ⟨s₀, ⟨[]⟩⟩ ∧ ts'.accept = ⟨ts'.ir, ⟨[]⟩⟩ := by
  have hcp : (TxState.save ⟨s₀, ⟨[]⟩⟩).tracker.checkpoints = [] :: [] := rfl
  obtain ⟨cs, hcp', hrev⟩ := txRun_log ms _ ts' [] [] hcp h
  rw [List.append_nil] at hcp'
  constructor
  · show (match ts'.tracker.checkpoints with
      | [] => ts'
      | log :: rest => ⟨revertLog log ts'.ir, ⟨rest⟩⟩) = ⟨s₀, ⟨[]⟩⟩
    rw [hcp']
    simp only [hrev]
    rfl
  · show (match ts'.tracker.checkpoints with
      | [] => ts'
      | _ :: rest => ⟨ts'.ir, ⟨rest⟩⟩) = ⟨ts'.ir, ⟨[]⟩⟩
    rw [hcp']

/-- Witness for C2: a run that exercises every mutation kind (operand write,
operand swap, insert, detach, erase) succeeds from a concrete two-value,
one-block world, and reverting restores it exactly while accepting keeps the
mutated state. -/
theorem claim_C2_transaction_law_witness :
    txRun
      [Mutation.setOperand 10 0 5, Mutation.swapOperands 10 0 1,
       Mutation.insertInto 20 2 32, Mutation.removeFromParent 20 0,
       Mutation.eraseFromParent 20 0]
      (TxState.save
        ⟨⟨[(10, [1, 2])], [(20, [30, 31])], [(30, 100), (31, 101)]⟩, ⟨[]⟩⟩) =
      some
        ⟨⟨[(10, [2, 5])], [(20, [32])], [(30, 100)]⟩,
         ⟨[[Change.unregistered 1 31 101, Change.removed 20 0 31,
            Change.removed 20 0 30, Change.inserted 20 2,
            Change.setOp 10 1 2, Change.setOp 10 0 5,
            Change.setOp 10 0 1]]⟩⟩ ∧
    (TxState.revert
        ⟨⟨[(10, [2, 5])], [(20, [32])], [(30, 100)]⟩,
         ⟨[[Change.unregistered 1 31 101, Change.removed 20 0 31,
            Change.removed 20 0 30, Change.inserted 20 2,
            Change.setOp 10 1 2, Change.setOp 10 0 5,
            Change.setOp 10 0 1]]⟩⟩ =
      ⟨⟨[(10, [1, 2])], [(20, [30, 31])], [(30, 100), (31, 101)]⟩, ⟨[]⟩⟩) ∧
    (TxState.accept
        ⟨⟨[(10, [2, 5])], [(20, [32])], [(30, 100)]⟩,
         ⟨[[Change.unregistered 1 31 101, Change.removed 20 0 31,
            Change.removed 20 0 30, Change.inserted 20 2,
            Change.setOp 10 1 2, Change.setOp 10 0 5,
            Change.setOp 10 0 1]]⟩⟩ =
      ⟨⟨[(10, [2, 5])], [(20, [32])], [(30, 100)]⟩, ⟨[]⟩⟩) := by
  refine ⟨by decide, ?_, ?_⟩
  · exact (claim_C2_transaction_law
      [Mutation.setOperand 10 0 5, Mutation.swapOperands 10 0 1,
       Mutation.insertInto 20 2 32, Mutation.removeFromParent 20 0,
       Mutation.eraseFromParent 20 0]
      ⟨[(10, [1, 2])], [(20, [30, 31])], [(30, 100), (31, 101)]⟩
      _ (by decide)).1
  · exact (claim_C2_transaction_law
      [Mutation.setOperand 10 0 5, Mutation.swapOperands 10 0 1,
       Mutation.insertInto 20 2 32, Mutation.removeFromParent 20 0,
       Mutation.eraseFromParent 20 0]
      ⟨[(10, [1, 2])], [(20, [30, 31])], [(30, 100), (31, 101)]⟩
      _ (by decide)).2

/-! ## Operand round trip (claim C3) -/

/-- Reading the index that was just set yields the written element. -/
theorem list_get_set_eq {α : Type} : ∀ (l : List α) (i : Nat) (a : α),
    i < l.length → (l.set i a).get? i = some a
  | [], i, _, h => by simp at h
  | x :: xs, 0, a, _ => rfl
  | x :: xs, i + 1, a, h => by
    simp only [List.set, List.get?]
    exact list_get_set_eq xs i a (Nat.lt_of_succ_lt_succ h)

/-- C3: after `setOperand(i, v)` performed through the overlay API on a user
with a valid operand index `i`, `getOperand(i)` on that user reads back
exactly the overlay value that was written: the write goes through the Use
edge at index `i` into the underlying operand list and is immediately
observable through the same index, resolved through the registry. -/
theorem claim_C3_setOperand_getOperand (s s1 : IRState) (c : Change)
    (u i vU ov : Nat)
    (hset : apiSetOperand u i vU s = some (s1, c))
    (hreg : lookupAssoc s.regMap vU = some ov) :
    getOperand s1 u i = some ov := by
  unfold apiSetOperand at hset
  split at hset
  · simp at hset
  · rename_i ops hops
    split at hset
    · simp at hset
    · rename_i old hold
      simp only [Option.some.injEq, Prod.mk.injEq] at hset
      obtain ⟨hs1, hc⟩ := hset
      subst hs1
      subst hc
      have hlen : i < ops.length := by
        rcases List.get?_eq_some.mp hold with ⟨hlt, _⟩
        exact hlt
      unfold getOperand
      rw [show (IRState.mk (updAssoc s.operands u (fun o => o.set i vU))
            s.blocks s.regMap).operands =
          updAssoc s.operands u (fun o => o.set i vU) from rfl,
        lookupAssoc_updAssoc s.operands u _ ops hops]
      show (match (ops.set i vU).get? i with
        | none => none
        | some uval => lookupAssoc s.regMap uval) = some ov
      rw [list_get_set_eq ops i vU hlen]
      exact hreg

/-- Witness for C3: writing underlying value 7 into operand 1 of user 10 and
reading it back through the registry yields overlay value 70. -/
theorem claim_C3_setOperand_getOperand_witness :
    apiSetOperand 10 1 7 ⟨[(10, [1, 2])], [], [(7, 70)]⟩ =
      some (⟨[(10, [1, 7])], [], [(7, 70)]⟩, Change.setOp 10 1 2) ∧
    lookupAssoc (IRState.mk [(10, [1, 2])] [] [(7, 70)]).regMap 7 = some 70 ∧
    getOperand ⟨[(10, [1, 7])], [], [(7, 70)]⟩ 10 1 = some 70 :=
  ⟨by decide, by decide,
   claim_C3_setOperand_getOperand ⟨[(10, [1, 2])], [], [(7, 70)]⟩
     ⟨[(10, [1, 7])], [], [(7, 70)]⟩ (Change.setOp 10 1 2) 10 1 7 70
     (by decide) (by decide)⟩

/-! ## The Use edge / operand index inverse law (claim C4) -/

/-- C4: for every concrete User subclass of the header and every operand
index, `getUseOperandNo` applied to the Use edge produced by
`getOperandUse` returns the index again: the per-subclass mapping from
logical operand index to Use edge and the inverse mapping compose to the
identity (every subclass delegates to the default pair). -/
theorem claim_C4_use_operand_no_inverse (c : UserClassID) (owner i : Nat) :
    getUseOperandNo c (getOperandUse c owner i) = i := by
  cases c with
  | constant => rfl
  | function => rfl
  | instr ic => cases ic <;> rfl

/-! ## Swapping the successors of a conditional branch (claim C6) -/

/-- C6: for a conditional branch with underlying operands
`[condition, falseDest, trueDest]` whose destination blocks are registered,
`swapSuccessors` (which swaps operands 1 and 2 through the tracked API)
exchanges what `getSuccessor(0)` and `getSuccessor(1)` return, leaves the
underlying branch's operand and successor lists in the matching swapped
order, and a subsequent `revert()` restores both to the original order. -/
theorem claim_C6_swapSuccessors (s : IRState) (br cnd f t ovF ovT : Nat)
    (ts1 : TxState)
    (hops : lookupAssoc s.operands br = some [cnd, f, t])
    (hf : lookupAssoc s.regMap f = some ovF)
    (ht : lookupAssoc s.regMap t = some ovT)
    (hswap : swapSuccessors br (TxState.save ⟨s, ⟨[]⟩⟩) = some ts1) :
    (branchGetSuccessor s br 0 = some ovT ∧
     branchGetSuccessor s br 1 = some ovF) ∧
    (branchGetSuccessor ts1.ir br 0 = some ovF ∧
     branchGetSuccessor ts1.ir br 1 = some ovT) ∧
    lookupAssoc ts1.ir.operands br = some [cnd, t, f] ∧
    llvmBranchSuccessors [cnd, f, t] = [t, f] ∧
    llvmBranchSuccessors [cnd, t, f] = [f, t] ∧
    ts1.revert = ⟨s, ⟨[]⟩⟩ := by
  have h1 : apiSetOperand br 1 t s =
      some (IRState.mk (updAssoc s.operands br (fun o => o.set 1 t))
              s.blocks s.regMap,
            Change.setOp br 1 f) := by
    unfold apiSetOperand
    rw [hops]
    rfl
  have hub : lookupAssoc
      (updAssoc s.operands br (fun o => o.set 1 t)) br = some [cnd, t, t] :=
    lookupAssoc_updAssoc s.operands br (fun o => o.set 1 t) _ hops
  have h2 : apiSetOperand br 2 f
      (IRState.mk (updAssoc s.operands br (fun o => o.set 1 t))
        s.blocks s.regMap) =
      some (IRState.mk
              (updAssoc (updAssoc s.operands br (fun o => o.set 1 t)) br
                (fun o => o.set 2 f)) s.blocks s.regMap,
            Change.setOp br 2 t) := by
    unfold apiSetOperand
    rw [show (IRState.mk (updAssoc s.operands br (fun o => o.set 1 t))
          s.blocks s.regMap).operands =
        updAssoc s.operands br (fun o => o.set 1 t) from rfl, hub]
    rfl
  have hS2 : lookupAssoc
      (updAssoc (updAssoc s.operands br (fun o => o.set 1 t)) br
        (fun o => o.set 2 f)) br = some [cnd, t, f] :=
    lookupAssoc_updAssoc _ br (fun o => o.set 2 f) _ hub
  have happ : apiStep s (Mutation.swapOperands br 1 2) =
      some (IRState.mk
              (updAssoc (updAssoc s.operands br (fun o => o.set 1 t)) br
                (fun o => o.set 2 f)) s.blocks s.regMap,
            [Change.setOp br 2 t, Change.setOp br 1 f]) := by
    show apiSwapOperands br 1 2 s = _
    unfold apiSwapOperands
    rw [hops]
    show (match apiSetOperand br 1 t s with
      | none => none
      | some (s1, c1) =>
        match apiSetOperand br 2 f s1 with
        | none => none
        | some (s2, c2) => some (s2, [c2, c1])) = _
    rw [h1]
    show (match apiSetOperand br 2 f
        (IRState.mk (updAssoc s.operands br (fun o => o.set 1 t))
          s.blocks s.regMap) with
      | none => none
      | some (s2, c2) => some (s2, [c2, Change.setOp br 1 f])) = _
    rw [h2]
  have hswap' : swapSuccessors br (TxState.save ⟨s, ⟨[]⟩⟩) =
      some ⟨IRState.mk
              (updAssoc (updAssoc s.operands br (fun o => o.set 1 t)) br
                (fun o => o.set 2 f)) s.blocks s.regMap,
            ⟨[[Change.setOp br 2 t, Change.setOp br 1 f]]⟩⟩ := by
    unfold swapSuccessors txStep
    rw [show (TxState.save ⟨s, ⟨[]⟩⟩).ir = s from rfl, happ]
    rfl
  rw [hswap'] at hswap
  simp only [Option.some.injEq] at hswap
  subst hswap
  refine ⟨⟨?_, ?_⟩, ⟨?_, ?_⟩, ?_, rfl, rfl, ?_⟩
  · unfold branchGetSuccessor
    rw [hops]
    exact ht
  · unfold branchGetSuccessor
    rw [hops]
    exact hf
  · unfold branchGetSuccessor
    rw [show (TxState.mk
        (IRState.mk
          (updAssoc (updAssoc s.operands br (fun o => o.set 1 t)) br
            (fun o => o.set 2 f)) s.blocks s.regMap)
        ⟨[[Change.setOp br 2 t, Change.setOp br 1 f]]⟩).ir.operands =
      updAssoc (updAssoc s.operands br (fun o => o.set 1 t)) br
        (fun o => o.set 2 f) from rfl, hS2]
    exact hf
  · unfold branchGetSuccessor
    rw [show (TxState.mk
        (IRState.mk
          (updAssoc (updAssoc s.operands br (fun o => o.set 1 t)) br
            (fun o => o.set 2 f)) s.blocks s.regMap)
        ⟨[[Change.setOp br 2 t, Change.setOp br 1 f]]⟩).ir.operands =
      updAssoc (updAssoc s.operands br (fun o => o.set 1 t)) br
        (fun o => o.set 2 f) from rfl, hS2]
    exact ht
  · exact hS2
  · show TxState.mk
      (revertLog [Change.setOp br 2 t, Change.setOp br 1 f]
        (IRState.mk
          (updAssoc (updAssoc s.operands br (fun o => o.set 1 t)) br
            (fun o => o.set 2 f)) s.blocks s.regMap)) ⟨[]⟩ = ⟨s, ⟨[]⟩⟩
    rw [apiStep_revert s (Mutation.swapOperands br 1 2) _ _ happ]

/-- Witness for C6: a conditional branch (user 5) with condition 9 and
destination blocks 20 and 21 registered as overlays 200 and 201; the swap
succeeds, the successors are exchanged, and revert restores the state. -/
theorem claim_C6_swapSuccessors_witness :
    lookupAssoc (IRState.mk [(5, [9, 20, 21])] [] [(20, 200), (21, 201)]).operands
      5 = some [9, 20, 21] ∧
    lookupAssoc (IRState.mk [(5, [9, 20, 21])] [] [(20, 200), (21, 201)]).regMap
      20 = some 200 ∧
    lookupAssoc (IRState.mk [(5, [9, 20, 21])] [] [(20, 200), (21, 201)]).regMap
      21 = some 201 ∧
    swapSuccessors 5
      (TxState.save ⟨⟨[(5, [9, 20, 21])], [], [(20, 200), (21, 201)]⟩, ⟨[]⟩⟩) =
      some ⟨⟨[(5, [9, 21, 20])], [], [(20, 200), (21, 201)]⟩,
            ⟨[[Change.setOp 5 2 21, Change.setOp 5 1 20]]⟩⟩ ∧
    ((branchGetSuccessor ⟨[(5, [9, 20, 21])], [], [(20, 200), (21, 201)]⟩ 5 0 =
        some 201 ∧
      branchGetSuccessor ⟨[(5, [9, 20, 21])], [], [(20, 200), (21, 201)]⟩ 5 1 =
        some 200) ∧
     (branchGetSuccessor
        (TxState.mk ⟨[(5, [9, 21, 20])], [], [(20, 200), (21, 201)]⟩
          ⟨[[Change.setOp 5 2 21, Change.setOp 5 1 20]]⟩).ir 5 0 = some 200 ∧
      branchGetSuccessor
        (TxState.mk ⟨[(5, [9, 21, 20])], [], [(20, 200), (21, 201)]⟩
          ⟨[[Change.setOp 5 2 21, Change.setOp 5 1 20]]⟩).ir 5 1 = some 201) ∧
     lookupAssoc
       (TxState.mk ⟨[(5, [9, 21, 20])], [], [(20, 200), (21, 201)]⟩
         ⟨[[Change.setOp 5 2 21, Change.setOp 5 1 20]]⟩).ir.operands 5 =
       some [9, 21, 20] ∧
     llvmBranchSuccessors [9, 20, 21] = [21, 20] ∧
     llvmBranchSuccessors [9, 21, 20] = [20, 21] ∧
     (TxState.mk ⟨[(5, [9, 21, 20])], [], [(20, 200), (21, 201)]⟩
        ⟨[[Change.setOp 5 2 21, Change.setOp 5 1 20]]⟩).revert =
       ⟨⟨[(5, [9, 20, 21])], [], [(20, 200), (21, 201)]⟩, ⟨[]⟩⟩) :=
  ⟨by decide, by decide, by decide, by decide,
   claim_C6_swapSuccessors ⟨[(5, [9, 20, 21])], [], [(20, 200), (21, 201)]⟩
     5 9 20 21 200 201
     ⟨⟨[(5, [9, 21, 20])], [], [(20, 200), (21, 201)]⟩,
      ⟨[[Change.setOp 5 2 21, Change.setOp 5 1 20]]⟩⟩
     (by decide) (by decide) (by decide) (by decide)⟩

/-- C7: `getValue` on a never-materialized underlying value returns "not
found" (none), does not create or register any overlay value, and in
particular leaves `getNumValues` unchanged. -/
theorem claim_C7_getValue_miss (c : Context) (v : LLVMValueId)
    (h : v ∉ c.keys) :
    (c.getValue v).1 = none ∧ (c.getValue v).2 = c ∧
    (c.getValue v).2.getNumValues = c.getNumValues :=
  ⟨(lookupValue_eq_none_iff c v).mpr h, rfl, rfl⟩

/-- Witness for C7: a registry holding only underlying value 1; value 2 was
never materialized, and the lookup misses without any side effect. -/
theorem claim_C7_getValue_miss_witness :
    (2 ∉ (Context.mk [(1, 0)] 1).keys) ∧
    ((Context.mk [(1, 0)] 1).getValue 2).1 = none ∧
    ((Context.mk [(1, 0)] 1).getValue 2).2 = Context.mk [(1, 0)] 1 ∧
    ((Context.mk [(1, 0)] 1).getValue 2).2.getNumValues =
      (Context.mk [(1, 0)] 1).getNumValues :=
  ⟨by decide, claim_C7_getValue_miss (Context.mk [(1, 0)] 1) 2 (by decide)⟩

/-! ## Detach plus reattach equals moveBefore (claim C8) -/

/-- C8: removing an instruction from its parent and then inserting it before
`w` produces exactly the block state `moveBefore(w)` produces directly; and
`moveBefore` never leaves the moved instruction absent from every block: as
one observably atomic operation it lands the instruction in the block that
holds `w` (for a surviving target, i.e. `w` still present after dropping
`x`). -/
theorem claim_C8_moveBefore_refinement :
    (∀ (bs : List (Nat × List Nat)) (w x : Nat),
      insertInstrBefore (removeInstrFromParent bs x) w x =
        moveInstrBefore bs w x) ∧
    (∀ (bs : List (Nat × List Nat)) (b : Nat) (l : List Nat) (w x : Nat),
      (b, l) ∈ bs → w ∈ l.erase x →
      (b, (l.erase x).insertIdx ((l.erase x).indexOf w) x) ∈
        moveInstrBefore bs w x ∧
      x ∈ (l.erase x).insertIdx ((l.erase x).indexOf w) x) := by
  constructor
  · intro bs w x
    simp only [insertInstrBefore, removeInstrFromParent, moveInstrBefore,
      List.map_map]
    rfl
  · intro bs b l w x hmem hw
    constructor
    · refine List.mem_map.mpr ⟨(b, l), hmem, ?_⟩
      simp only [if_pos hw]
    · exact (List.mem_insertIdx (List.indexOf_le_length)).mpr (Or.inl rfl)

/-- Witness for C8: moving instruction 3 before instruction 5 across two
blocks, by detach-then-insert, agrees with the direct move, and the moved
instruction is present in the target block. -/
theorem claim_C8_moveBefore_refinement_witness :
    insertInstrBefore (removeInstrFromParent [(1, [3, 4]), (2, [5, 6])] 3) 5 3 =
      moveInstrBefore [(1, [3, 4]), (2, [5, 6])] 5 3 ∧
    ((2, [5, 6]) ∈ ([(1, [3, 4]), (2, [5, 6])] : List (Nat × List Nat)) ∧
     5 ∈ ([5, 6] : List Nat).erase 3) ∧
    ((2, (([5, 6] : List Nat).erase 3).insertIdx
        ((([5, 6] : List Nat).erase 3).indexOf 5) 3) ∈
      moveInstrBefore [(1, [3, 4]), (2, [5, 6])] 5 3 ∧
     3 ∈ (([5, 6] : List Nat).erase 3).insertIdx
        ((([5, 6] : List Nat).erase 3).indexOf 5) 3) :=
  ⟨claim_C8_moveBefore_refinement.1 [(1, [3, 4]), (2, [5, 6])] 5 3,
   ⟨by decide, by decide⟩,
   claim_C8_moveBefore_refinement.2 [(1, [3, 4]), (2, [5, 6])] 2 [5, 6] 5 3
     (by decide) (by decide)⟩

/-! ## Instruction spans are single and contiguous (claim C9) -/

/-- A singleton list of a block member is an infix of the block. -/
theorem singleton_isInfix_of_mem {α : Type} {a : α} {l : List α}
    (h : a ∈ l) : List.IsInfix [a] l := by
  rcases List.append_of_mem h with ⟨s, t, rfl⟩
  exact ⟨s, t, by simp⟩

/-- C9: for every concrete instruction subclass of the header,
`getNumOfIRInstrs()` equals `getLLVMInstrs().size()`, and the returned
instructions are contiguous (an infix) in program order in any underlying
block containing the anchor. -/
theorem claim_C9_instr_span (c : InstrClassID) (val : LLVMValueId)
    (block : List LLVMValueId) (hmem : val ∈ block) :
    getNumOfIRInstrs c = (getLLVMInstrs c val).length ∧
    List.IsInfix (getLLVMInstrs c val) block := by
  cases c <;>
    exact ⟨rfl, singleton_isInfix_of_mem hmem⟩

/-- Witness for C9: a select instruction anchored at value 3 inside block
`[1, 3, 5]`. -/
theorem claim_C9_instr_span_witness :
    (3 ∈ ([1, 3, 5] : List LLVMValueId)) ∧
    getNumOfIRInstrs InstrClassID.Select =
      (getLLVMInstrs InstrClassID.Select 3).length ∧
    List.IsInfix (getLLVMInstrs InstrClassID.Select 3) [1, 3, 5] :=
  ⟨by decide, claim_C9_instr_span InstrClassID.Select 3 [1, 3, 5] (by decide)⟩

/-! ## Overlay iteration order matches underlying order (claim C5) -/

/-- Creating an overlay for one value preserves existing registrations. -/
theorem getOrCreateValue_preserves (c : Context) (u v : LLVMValueId)
    (sb : SBValueId) (h : c.lookupValue v = some sb) :
    (c.getOrCreateValue u).2.lookupValue v = some sb := by
  unfold Context.getOrCreateValue Context.getOrCreateValueInternal
  cases hu : c.lookupValue u with
  | some sbu => exact h
  | none =>
    have hne : u ≠ v := by
      intro he
      rw [he, h] at hu
      cases hu
    show (List.find? (fun p => p.1 == v)
        ((u, c.nextUID) :: c.llvmValueToValueMap)).map (·.2) = some sb
    rw [List.find?_cons_of_neg _ (by simpa using hne)]
    exact h

/-- After `getOrCreateValue(u)` the value `u` is registered, under the
returned identity. -/
theorem getOrCreateValue_registers (c : Context) (u : LLVMValueId) :
    (c.getOrCreateValue u).2.lookupValue u = some (c.getOrCreateValue u).1 := by
  unfold Context.getOrCreateValue Context.getOrCreateValueInternal
  cases hu : c.lookupValue u with
  | some sbu => exact hu
  | none => simp [Context.lookupValue, List.find?]

/-- Block materialization preserves existing registrations. -/
theorem buildBasicBlock_preserves :
    ∀ (instrs : List LLVMValueId) (c : Context) (v : LLVMValueId)
      (sb : SBValueId), c.lookupValue v = some sb →
      (buildBasicBlockFromLLVMIR c instrs).lookupValue v = some sb
  | [], _, _, _, h => h
  | u :: rest, c, v, sb, h =>
    buildBasicBlock_preserves rest _ v sb
      (getOrCreateValue_preserves c u v sb h)

/-- Block materialization registers an overlay for every listed underlying
instruction. -/
theorem buildBasicBlock_registers :
    ∀ (instrs : List LLVMValueId) (c : Context) (u : LLVMValueId),
      u ∈ instrs →
      ∃ sb, (buildBasicBlockFromLLVMIR c instrs).lookupValue u = some sb
  | [], _, _, h => absurd h (List.not_mem_nil _)
  | v :: rest, c, u, h => by
    rcases List.mem_cons.mp h with he | hrest
    · subst he
      exact ⟨(c.getOrCreateValue u).1,
        buildBasicBlock_preserves rest _ u _
          (getOrCreateValue_registers c u)⟩
    · exact buildBasicBlock_registers rest _ u hrest

/-- Detaching one value leaves every other registration unchanged. -/
theorem detachLLVMValue_lookup_ne (c : Context) (x v : LLVMValueId)
    (hne : v ≠ x) : (c.detachLLVMValue x).lookupValue v = c.lookupValue v := by
  show lookupAssoc (c.llvmValueToValueMap.filter (fun p => p.1 != x)) v =
    lookupAssoc c.llvmValueToValueMap v
  induction c.llvmValueToValueMap with
  | nil => rfl
  | cons p rest ih =>
    by_cases hpx : p.1 = x
    · have hfilter : (p :: rest).filter (fun q => q.1 != x) =
          rest.filter (fun q => q.1 != x) := by
        simp [List.filter_cons, hpx]
      rw [hfilter, ih]
      have hpv : (p.1 == v) = false := by
        simp only [beq_eq_false_iff_ne]
        rw [hpx]
        exact fun he => hne he.symm
      show lookupAssoc rest v = lookupAssoc (p :: rest) v
      simp [lookupAssoc, List.find?, hpv]
    · have hfilter : (p :: rest).filter (fun q => q.1 != x) =
          p :: rest.filter (fun q => q.1 != x) := by
        simp [List.filter_cons, hpx]
      rw [hfilter]
      by_cases hpv : p.1 = v
      · have hb : (p.1 == v) = true := by simp [hpv]
        simp [lookupAssoc, List.find?, hb]
      · have hb : (p.1 == v) = false := by simp [hpv]
        show lookupAssoc (p :: rest.filter (fun q => q.1 != x)) v =
          lookupAssoc (p :: rest) v
        simp only [lookupAssoc, List.find?, hb]
        exact ih

/-- Membership after `insertIdx`, with no bound on the index. -/
theorem list_mem_insertIdx_weak {α : Type} {y u : α} {l : List α}
    {idx : Nat} (h : y ∈ l.insertIdx idx u) : y = u ∨ y ∈ l := by
  by_cases hle : idx ≤ l.length
  · exact (List.mem_insertIdx hle).mp h
  · rw [List.insertIdx_of_length_lt l u idx (by omega)] at h
    exact Or.inr h

/-- Inserting a fresh element anywhere keeps a list duplicate-free. -/
theorem list_nodup_insertIdx {α : Type} :
    ∀ (l : List α) (idx : Nat) (u : α), u ∉ l → l.Nodup →
      (l.insertIdx idx u).Nodup
  | l, 0, u, hu, hnd => by
    rw [List.insertIdx_zero]
    exact List.nodup_cons.mpr ⟨hu, hnd⟩
  | [], idx + 1, u, _, _ => by
    rw [List.insertIdx_succ_nil]
    exact List.nodup_nil
  | x :: xs, idx + 1, u, hu, hnd => by
    rw [List.insertIdx_succ_cons]
    rcases List.nodup_cons.mp hnd with ⟨hx, hxs⟩
    refine List.nodup_cons.mpr ⟨?_, ?_⟩
    · intro hmem
      rcases list_mem_insertIdx_weak hmem with he | hmem'
      · exact hu (he ▸ List.mem_cons_self x xs)
      · exact hx hmem'
    · exact list_nodup_insertIdx xs idx u
        (fun hmem => hu (List.mem_cons_of_mem x hmem)) hxs

/-- In a duplicate-free list, the element at an index is gone after erasing
that index. -/
theorem list_not_mem_eraseIdx {α : Type} :
    ∀ (l : List α) (idx : Nat) (x : α), l.Nodup → l.get? idx = some x →
      x ∉ l.eraseIdx idx
  | [], _, _, _, h => by simp at h
  | y :: ys, 0, x, hnd, h => by
    simp only [List.get?, Option.some.injEq] at h
    subst h
    rw [List.eraseIdx_cons_zero]
    exact (List.nodup_cons.mp hnd).1
  | y :: ys, idx + 1, x, hnd, h => by
    simp only [List.get?] at h
    rw [List.eraseIdx_cons_succ]
    rcases List.nodup_cons.mp hnd with ⟨hy, hys⟩
    intro hmem
    rcases List.mem_cons.mp hmem with he | hmem'
    · exact hy (he ▸ List.get?_mem h)
    · exact list_not_mem_eraseIdx ys idx x hys h hmem'

theorem applyBlockOp_inv (s : BBState) (op : BlockOp) (h : BBInv s) :
    BBInv (applyBlockOp s op) := by
  obtain ⟨hreg, hnd⟩ := h
  cases op with
  | insertAt idx u =>
    simp only [applyBlockOp]
    by_cases hu : u ∈ s.instrs
    · rw [if_pos hu]
      exact ⟨hreg, hnd⟩
    · rw [if_neg hu]
      refine ⟨?_, list_nodup_insertIdx s.instrs idx u hu hnd⟩
      intro y hy
      rcases list_mem_insertIdx_weak hy with he | hmem
      · subst he
        exact ⟨(s.ctx.getOrCreateValue y).1, getOrCreateValue_registers _ y⟩
      · rcases hreg y hmem with ⟨sb, hsb⟩
        exact ⟨sb, getOrCreateValue_preserves _ u y sb hsb⟩
  | moveIdx i j =>
    simp only [applyBlockOp]
    cases hx : s.instrs.get? i with
    | none => exact ⟨hreg, hnd⟩
    | some x =>
      have hxmem : x ∈ s.instrs := List.get?_mem hx
      have hnd' : (s.instrs.eraseIdx i).Nodup :=
        hnd.sublist (List.eraseIdx_sublist s.instrs i)
      refine ⟨?_, list_nodup_insertIdx _ j x
        (list_not_mem_eraseIdx s.instrs i x hnd hx) hnd'⟩
      intro y hy
      rcases list_mem_insertIdx_weak hy with he | hmem
      · exact hreg y (he ▸ hxmem)
      · exact hreg y ((List.eraseIdx_sublist s.instrs i).mem hmem)
  | removeAt idx =>
    exact ⟨fun y hy =>
        hreg y ((List.eraseIdx_sublist s.instrs idx).mem hy),
      hnd.sublist (List.eraseIdx_sublist s.instrs idx)⟩
  | eraseAt idx =>
    simp only [applyBlockOp]
    cases hx : s.instrs.get? idx with
    | none => exact ⟨hreg, hnd⟩
    | some x =>
      refine ⟨?_, hnd.sublist (List.eraseIdx_sublist s.instrs idx)⟩
      intro y hy
      have hymem : y ∈ s.instrs :=
        (List.eraseIdx_sublist s.instrs idx).mem hy
      have hyx : y ≠ x := by
        intro he
        exact list_not_mem_eraseIdx s.instrs idx x hnd hx (he ▸ hy)
      rcases hreg y hymem with ⟨sb, hsb⟩
      exact ⟨sb, by rw [detachLLVMValue_lookup_ne s.ctx x y hyx]; exact hsb⟩

theorem runBlockOps_inv :
    ∀ (ops : List BlockOp) (s : BBState), BBInv s →
      BBInv (runBlockOps ops s)
  | [], _, h => h
  | op :: rest, s, h =>
    runBlockOps_inv rest (applyBlockOp s op) (applyBlockOp_inv s op h)

/-- With every listed instruction registered, iterating the block yields the
overlay counterparts of the underlying instructions, element for element and
in the same order. -/
theorem bbOverlaySeq_correspond :
    ∀ (instrs : List LLVMValueId) (c : Context),
      (∀ u ∈ instrs, ∃ sb, c.lookupValue u = some sb) →
      List.Forall₂ (fun ov u => (c.getValue u).1 = some ov)
        (bbOverlaySeq c instrs) instrs
  | [], _, _ => List.Forall₂.nil
  | u :: rest, c, h => by
    rcases h u (List.mem_cons_self u rest) with ⟨sb, hsb⟩
    have hrest := bbOverlaySeq_correspond rest c
      (fun v hv => h v (List.mem_cons_of_mem u hv))
    have : bbOverlaySeq c (u :: rest) = sb :: bbOverlaySeq c rest := by
      simp [bbOverlaySeq, Context.getValue, hsb]
    rw [this]
    exact List.Forall₂.cons (show (c.getValue u).1 = some sb from hsb) hrest

/-- C5: starting from a materialized block (one overlay instruction created
per underlying instruction) and applying any sequence of insert, move,
detach and erase operations, the sequence observed by iterating the block
corresponds element for element, in order, to the underlying instruction
sequence: equal lengths, and the i-th observed overlay instruction is
exactly the registered overlay of the i-th underlying instruction. -/
theorem claim_C5_order_preservation (c0 : Context)
    (instrs0 : List LLVMValueId) (hnd : instrs0.Nodup) (ops : List BlockOp) :
    List.Forall₂
      (fun ov u =>
        ((runBlockOps ops
            ⟨buildBasicBlockFromLLVMIR c0 instrs0, instrs0⟩).ctx.getValue
          u).1 = some ov)
      (bbOverlaySeq
        (runBlockOps ops
          ⟨buildBasicBlockFromLLVMIR c0 instrs0, instrs0⟩).ctx
        (runBlockOps ops
          ⟨buildBasicBlockFromLLVMIR c0 instrs0, instrs0⟩).instrs)
      (runBlockOps ops
        ⟨buildBasicBlockFromLLVMIR c0 instrs0, instrs0⟩).instrs ∧
    (bbOverlaySeq
        (runBlockOps ops
          ⟨buildBasicBlockFromLLVMIR c0 instrs0, instrs0⟩).ctx
        (runBlockOps ops
          ⟨buildBasicBlockFromLLVMIR c0 instrs0, instrs0⟩).instrs).length =
      (runBlockOps ops
        ⟨buildBasicBlockFromLLVMIR c0 instrs0, instrs0⟩).instrs.length := by
  have hinv : BBInv (runBlockOps ops
      ⟨buildBasicBlockFromLLVMIR c0 instrs0, instrs0⟩) :=
    runBlockOps_inv ops _
      ⟨fun u hu => buildBasicBlock_registers instrs0 c0 u hu, hnd⟩
  have hcorr := bbOverlaySeq_correspond _ _ hinv.1
  exact ⟨hcorr, hcorr.length_eq⟩

/-- Witness for C5: three distinct instructions materialized, then a move,
an insert, a detach, and an erase; the overlay iteration still mirrors the
underlying order. -/
theorem claim_C5_order_preservation_witness :
    ([1, 2, 3] : List LLVMValueId).Nodup ∧
    (List.Forall₂
      (fun ov u =>
        ((runBlockOps [BlockOp.moveIdx 0 1, BlockOp.insertAt 1 7,
            BlockOp.removeAt 0, BlockOp.eraseAt 0]
            ⟨buildBasicBlockFromLLVMIR Context.empty [1, 2, 3],
             [1, 2, 3]⟩).ctx.getValue u).1 = some ov)
      (bbOverlaySeq
        (runBlockOps [BlockOp.moveIdx 0 1, BlockOp.insertAt 1 7,
            BlockOp.removeAt 0, BlockOp.eraseAt 0]
          ⟨buildBasicBlockFromLLVMIR Context.empty [1, 2, 3],
           [1, 2, 3]⟩).ctx
        (runBlockOps [BlockOp.moveIdx 0 1, BlockOp.insertAt 1 7,
            BlockOp.removeAt 0, BlockOp.eraseAt 0]
          ⟨buildBasicBlockFromLLVMIR Context.empty [1, 2, 3],
           [1, 2, 3]⟩).instrs)
      (runBlockOps [BlockOp.moveIdx 0 1, BlockOp.insertAt 1 7,
          BlockOp.removeAt 0, BlockOp.eraseAt 0]
        ⟨buildBasicBlockFromLLVMIR Context.empty [1, 2, 3],
         [1, 2, 3]⟩).instrs ∧
    (bbOverlaySeq
        (runBlockOps [BlockOp.moveIdx 0 1, BlockOp.insertAt 1 7,
            BlockOp.removeAt 0, BlockOp.eraseAt 0]
          ⟨buildBasicBlockFromLLVMIR Context.empty [1, 2, 3],
           [1, 2, 3]⟩).ctx
        (runBlockOps [BlockOp.moveIdx 0 1, BlockOp.insertAt 1 7,
            BlockOp.removeAt 0, BlockOp.eraseAt 0]
          ⟨buildBasicBlockFromLLVMIR Context.empty [1, 2, 3],
           [1, 2, 3]⟩).instrs).length =
      (runBlockOps [BlockOp.moveIdx 0 1, BlockOp.insertAt 1 7,
          BlockOp.removeAt 0, BlockOp.eraseAt 0]
        ⟨buildBasicBlockFromLLVMIR Context.empty [1, 2, 3],
         [1, 2, 3]⟩).instrs.length) :=
  ⟨by decide,
   claim_C5_order_preservation Context.empty [1, 2, 3] (by decide)
     [BlockOp.moveIdx 0 1, BlockOp.insertAt 1 7, BlockOp.removeAt 0,
      BlockOp.eraseAt 0]⟩

/-! ## Use counting: the boundary bug in hasNUsesOrMore (claim C10) -/

/-- Loop invariant of `hasNUses`: the walk compares the final count with the
requested number. -/
theorem hasNUses_go_spec (num : Nat) : ∀ (uses : List (Nat × Nat)) (cnt : Nat),
    hasNUses.go num uses cnt = decide (cnt + uses.length = num)
  | [], cnt => by
    simp only [hasNUses.go, List.length_nil, Nat.add_zero]
    by_cases h : cnt = num <;> simp [h]
  | _ :: rest, cnt => by
    simp only [hasNUses.go, List.length_cons]
    by_cases h : cnt + 1 > num
    · rw [if_pos h]
      exact (decide_eq_false
        (by omega : ¬(cnt + (rest.length + 1) = num))).symm
    · rw [if_neg h, hasNUses_go_spec num rest (cnt + 1)]
      simp only
        [show (cnt + 1 + rest.length = num) ↔ (cnt + (rest.length + 1) = num)
          by omega]

/-- Loop invariant of `hasNUsesOrMore`: while the counter is still below the
requested number, the walk decides whether enough elements remain. -/
theorem hasNUsesOrMore_go_spec (num : Nat) :
    ∀ (uses : List (Nat × Nat)) (cnt : Nat), cnt < num →
    hasNUsesOrMore.go num uses cnt = decide (cnt + uses.length ≥ num)
  | [], cnt, hlt => by
    simp only [hasNUsesOrMore.go, List.length_nil, Nat.add_zero]
    exact (decide_eq_false (by omega : ¬(cnt ≥ num))).symm
  | _ :: rest, cnt, hlt => by
    simp only [hasNUsesOrMore.go, List.length_cons]
    by_cases h : cnt + 1 ≥ num
    · rw [if_pos h]
      exact (decide_eq_true
        (by omega : cnt + (rest.length + 1) ≥ num)).symm
    · rw [if_neg h,
        hasNUsesOrMore_go_spec num rest (cnt + 1) (by omega)]
      simp only
        [show (cnt + 1 + rest.length ≥ num) ↔ (cnt + (rest.length + 1) ≥ num)
          by omega]

/-- C10 (code bug): `hasNUses(Num)` is exactly `getNumUses() == Num` for all
inputs, and `hasNUsesOrMore(Num)` is exactly `getNumUses() >= Num` for all
`Num >= 1`; but at the boundary case `Num == 0` on a value with no uses,
`hasNUsesOrMore` returns false although `getNumUses() >= 0` holds, so the
claimed equivalence (which is also the function's own documented contract)
fails there. -/
theorem claim_C10_hasNUses_boundary :
    hasNUsesOrMore [] 0 = false ∧
    getNumUses [] ≥ 0 ∧
    (∀ (uses : List (Nat × Nat)) (num : Nat),
      hasNUses uses num = decide (getNumUses uses = num)) ∧
    (∀ (uses : List (Nat × Nat)) (num : Nat),
      hasNUsesOrMore uses (num + 1) =
        decide (getNumUses uses ≥ num + 1)) := by
  refine ⟨rfl, Nat.zero_le _, ?_, ?_⟩
  · intro uses num
    have := hasNUses_go_spec num uses 0
    simpa [hasNUses, getNumUses] using this
  · intro uses num
    have := hasNUsesOrMore_go_spec (num + 1) uses 0 (Nat.succ_pos num)
    simpa [hasNUsesOrMore, getNumUses] using this

end SandboxIR
